import Mathlib

/-!
# Verification of the `elastic_reqwest` request-construction core

Shallow embedding of `src/lib.rs`: the `RequestParams` parameter store
(base url, sorted url-parameter map, header set), the
`application/x-www-form-urlencoded` query-string serialization used by
`get_url_qry`, the `build_url` concatenation, and the `build_method`
verb mapping.

Rust's `BTreeMap<&'static str, String>` is embedded as a list of
key/value pairs kept sorted by key (the `sortedKeys` invariant);
`reqwest::header::Headers` is embedded as an association list from
header name to value with upsert semantics (`Headers::set`).
The `url` crate's `form_urlencoded::Serializer` (an external dependency
of the repository) is embedded byte-for-byte after the WHATWG
`application/x-www-form-urlencoded` serializer it implements: bytes
`0x2A 0x2D 0x2E 0x5F`, digits and ASCII letters pass through, space
becomes `+`, every other byte becomes `%XX` with uppercase hex, the
input string being processed as its UTF-8 bytes.
-/

namespace ElasticReqwest

/-- UTF-8 byte sequence of a single character (each byte as a `Nat < 256`). -/
def utf8Bytes (c : Char) : List Nat :=
  let n := c.toNat
  if n < 0x80 then [n]
  else if n < 0x800 then [0xC0 + n / 64, 0x80 + n % 64]
  else if n < 0x10000 then [0xE0 + n / 4096, 0x80 + (n / 64) % 64, 0x80 + n % 64]
  else [0xF0 + n / 262144, 0x80 + (n / 4096) % 64, 0x80 + (n / 64) % 64, 0x80 + n % 64]

/-- UTF-8 bytes of a string, the byte view on which Rust's `str::len` and the
`form_urlencoded` serializer operate. -/
def stringBytes (s : String) : List Nat :=
  (s.data.map utf8Bytes).flatten

/-- Rust's `str::len`: the length of a string in UTF-8 bytes. -/
def strUtf8Len (s : String) : Nat :=
  (stringBytes s).length

/-- Uppercase hexadecimal digit, as used by percent-encoding. -/
def hexUpper (n : Nat) : Char :=
  if n < 10 then Char.ofNat (48 + n) else Char.ofNat (55 + n)

/-- The bytes the `application/x-www-form-urlencoded` serializer passes
through unencoded: `*`, `-`, `.`, `_`, digits and ASCII letters. -/
def safeByte (b : Nat) : Bool :=
  b == 0x2A || b == 0x2D || b == 0x2E || b == 0x5F ||
    (0x30 ≤ b && b ≤ 0x39) || (0x41 ≤ b && b ≤ 0x5A) || (0x61 ≤ b && b ≤ 0x7A)

/-- Serialization of one byte: space becomes `+`, safe bytes pass through,
everything else is percent-encoded with uppercase hex. -/
def encodeByte (b : Nat) : List Char :=
  if b = 32 then ['+']
  else if safeByte b then [Char.ofNat b]
  else ['%', hexUpper (b / 16), hexUpper (b % 16)]

/-- `application/x-www-form-urlencoded` encoding of one string
(key or value), as performed by `url::form_urlencoded::Serializer`. -/
def formUrlencode (s : String) : String :=
  ⟨((stringBytes s).map encodeByte).flatten⟩

/-- One `key=value` pair of the query string. -/
def serializePair (kv : String × String) : String :=
  formUrlencode kv.1 ++ "=" ++ formUrlencode kv.2

/-- The serializer's `extend_pairs`: `key=value` pairs joined with `&`,
in the order of the list. -/
def serializePairs : List (String × String) → String
  | [] => ""
  | [kv] => serializePair kv
  | kv :: kv' :: rest => serializePair kv ++ "&" ++ serializePairs (kv' :: rest)

/-- The `RequestParams` struct of `src/lib.rs`: base url, url query
parameters (`BTreeMap` embedded as a key-sorted association list), and the
header set. -/
structure RequestParams where
  base_url : String
  url_params : List (String × String)
  headers : List (String × String)
deriving DecidableEq

/-- `BTreeMap::contains_key` on the association-list embedding. -/
def containsKey (l : List (String × String)) (k : String) : Bool :=
  l.any (fun kv => kv.1 == k)

/-- `BTreeMap::get_mut` followed by `*entry = value`: overwrite the value
stored at key `k` in place, keys and order untouched. -/
def updateValue (l : List (String × String)) (k v : String) : List (String × String) :=
  l.map (fun kv => if kv.1 = k then (kv.1, v) else kv)

/-- `BTreeMap::insert` on the sorted association-list embedding: place the
new pair at its ordered position (replacing an equal key, which the caller
`url_param` never hits because it checks `contains_key` first). Keys are
compared in Rust's `Ord` order on `&str`, i.e. lexicographically by
character (`String.data`), which for UTF-8 equals the bytewise order. -/
def insertSorted (k v : String) : List (String × String) → List (String × String)
  | [] => [(k, v)]
  | kv :: rest =>
    if k.data < kv.1.data then (k, v) :: kv :: rest
    else if k = kv.1 then (k, v) :: rest
    else kv :: insertSorted k v rest

/-- `BTreeMap::get`: the value stored at key `k`, if any. -/
def lookupValue : List (String × String) → String → Option String
  | [], _ => none
  | kv :: rest, k => if kv.1 = k then some kv.2 else lookupValue rest k

/-- `Headers::set`: upsert a header by name. -/
def setHeader : List (String × String) → String → String → List (String × String)
  | [], n, v => [(n, v)]
  | h :: rest, n, v => if h.1 = n then (n, v) :: rest else h :: setHeader rest n v

/-- `Headers::get`: the value of the header with the given name, if any. -/
def lookupHeader : List (String × String) → String → Option String
  | [], _ => none
  | h :: rest, n => if h.1 = n then some h.2 else lookupHeader rest n

/-- The `BTreeMap` representation invariant: keys strictly increasing in
the `&str` order (lexicographic on characters). -/
def sortedKeys (l : List (String × String)) : Prop :=
  List.Pairwise (fun a b : String × String => a.1.data < b.1.data) l

instance (l : List (String × String)) : Decidable (sortedKeys l) :=
  inferInstanceAs (Decidable (List.Pairwise _ l))

/-- `RequestParams::new`: given base url, empty query map, and the
`Content-Type: application/json` header set by `ContentType::json()`. -/
def RequestParams.new (base : String) : RequestParams :=
  { base_url := base
    url_params := []
    headers := [("Content-Type", "application/json")] }

/-- `impl Default for RequestParams`. -/
def RequestParams.default : RequestParams :=
  RequestParams.new "http://localhost:9200"

/-- The builder method `RequestParams::base_url` (named `setBaseUrl` here
because the struct field of the same name takes the Lean name). -/
def RequestParams.setBaseUrl (p : RequestParams) (base : String) : RequestParams :=
  { p with base_url := base }

/-- `RequestParams::url_param`: if the key exists overwrite its value in
place, otherwise insert the pair; the value argument is the `ToString`
image of the Rust value. -/
def RequestParams.url_param (p : RequestParams) (key value : String) : RequestParams :=
  if containsKey p.url_params key then
    { p with url_params := updateValue p.url_params key value }
  else
    { p with url_params := insertSorted key value p.url_params }

/-- `RequestParams::header`: set a header (upsert by name). -/
def RequestParams.header (p : RequestParams) (name value : String) : RequestParams :=
  { p with headers := setHeader p.headers name value }

/-- `RequestParams::get_url_qry`: when parameters exist, the
form-urlencoded pairs appended to the `"?"` suffix target by
`Serializer::for_suffix`, returned with the string's byte length;
otherwise `(0, None)`. -/
def RequestParams.get_url_qry (p : RequestParams) : Nat × Option String :=
  if p.url_params.length > 0 then
    let qry := "?" ++ serializePairs p.url_params
    (strUtf8Len qry, some qry)
  else
    (0, none)

/-- `build_url`: base url, then the request path, then the query string
when present. -/
def build_url (req_url : String) (params : RequestParams) : String :=
  let q := params.get_url_qry
  let url := params.base_url ++ req_url
  match q.2 with
  | some qry => url ++ qry
  | none => url

/-- The abstract verb enumeration `HttpMethod` from `elastic_requests`,
with exactly the six variants `build_method` matches on. -/
inductive HttpMethod where
  | Get | Post | Head | Delete | Put | Patch
deriving DecidableEq

namespace Reqwest

/-- The transport library's verb type `reqwest::Method` (the variants the
mapping targets). -/
inductive Method where
  | Get | Post | Head | Delete | Put | Patch
deriving DecidableEq

end Reqwest

/-- `build_method`: the exhaustive match from `HttpMethod` to
`reqwest::Method`. -/
def build_method : HttpMethod → Reqwest.Method
  | HttpMethod.Get => Reqwest.Method.Get
  | HttpMethod.Post => Reqwest.Method.Post
  | HttpMethod.Head => Reqwest.Method.Head
  | HttpMethod.Delete => Reqwest.Method.Delete
  | HttpMethod.Put => Reqwest.Method.Put
  | HttpMethod.Patch => Reqwest.Method.Patch

/-- One builder operation on a `RequestParams` value, for stating
invariants over arbitrary operation sequences. -/
inductive Op where
  | baseUrl (base : String)
  | urlParam (key value : String)
  | header (name value : String)
deriving DecidableEq

/-- Apply one builder operation. -/
def applyOp (p : RequestParams) : Op → RequestParams
  | Op.baseUrl base => p.setBaseUrl base
  | Op.urlParam key value => p.url_param key value
  | Op.header name value => p.header name value

/-- Apply a sequence of builder operations, left to right. -/
def applyOps (p : RequestParams) (ops : List Op) : RequestParams :=
  ops.foldl applyOp p

/-! ## Association-list lemmas for the `BTreeMap` embedding -/

theorem mem_insertSorted {z : String × String} {k v : String} :
    ∀ {l : List (String × String)}, z ∈ insertSorted k v l → z = (k, v) ∨ z ∈ l := by
  intro l
  induction l with
  | nil => simp [insertSorted]
  | cons kv rest ih =>
    rw [insertSorted]
    split
    · intro hz
      rcases List.mem_cons.mp hz with rfl | hz'
      · exact Or.inl rfl
      · exact Or.inr hz'
    · split
      · intro hz
        rcases List.mem_cons.mp hz with rfl | hz'
        · exact Or.inl rfl
        · exact Or.inr (List.mem_cons_of_mem _ hz')
      · intro hz
        rcases List.mem_cons.mp hz with rfl | hz'
        · exact Or.inr (List.mem_cons_self _ _)
        · rcases ih hz' with rfl | hz2
          · exact Or.inl rfl
          · exact Or.inr (List.mem_cons_of_mem _ hz2)

theorem sortedKeys_insertSorted {k v : String} {l : List (String × String)}
    (h : sortedKeys l) : sortedKeys (insertSorted k v l) := by
  induction l with
  | nil => simp [insertSorted, sortedKeys]
  | cons kv rest ih =>
    rw [sortedKeys, List.pairwise_cons] at h
    obtain ⟨hkv, hrest⟩ := h
    rw [insertSorted]
    split
    · rename_i hlt
      rw [sortedKeys, List.pairwise_cons]
      refine ⟨?_, List.pairwise_cons.mpr ⟨hkv, hrest⟩⟩
      intro b hb
      rcases List.mem_cons.mp hb with rfl | hb'
      · exact hlt
      · exact lt_trans hlt (hkv b hb')
    · split
      · rename_i hne heq
        rw [sortedKeys, List.pairwise_cons]
        exact ⟨fun b hb => heq ▸ hkv b hb, hrest⟩
      · rename_i hnlt hne
        rw [sortedKeys, List.pairwise_cons]
        refine ⟨?_, ih hrest⟩
        intro b hb
        rcases mem_insertSorted hb with rfl | hb'
        · rcases lt_trichotomy kv.1.data k.data with hlt' | heq' | hlt'
          · exact hlt'
          · exact absurd (String.ext (by simpa using heq')) (fun e => hne e.symm)
          · exact absurd hlt' hnlt
        · exact hkv b hb'

theorem keys_updateValue (l : List (String × String)) (k v : String) :
    (updateValue l k v).map Prod.fst = l.map Prod.fst := by
  induction l with
  | nil => rfl
  | cons kv rest ih =>
    simp only [updateValue, List.map_cons] at ih ⊢
    split <;> simp [ih]

theorem updateValue_cons (kv : String × String) (rest : List (String × String))
    (k v : String) :
    updateValue (kv :: rest) k v =
      (if kv.1 = k then (kv.1, v) else kv) :: updateValue rest k v := rfl

theorem containsKey_cons (kv : String × String) (rest : List (String × String))
    (k : String) : containsKey (kv :: rest) k = (kv.1 == k || containsKey rest k) := rfl

theorem sortedKeys_updateValue {l : List (String × String)} (k v : String)
    (h : sortedKeys l) : sortedKeys (updateValue l k v) := by
  have h1 : List.Pairwise (fun x y : String => x.data < y.data)
      ((updateValue l k v).map Prod.fst) := by
    rw [keys_updateValue]
    exact (List.pairwise_map (f := Prod.fst)
      (R := fun x y : String => x.data < y.data)).mpr h
  exact (List.pairwise_map (f := Prod.fst)
    (R := fun x y : String => x.data < y.data)).mp h1

theorem containsKey_iff {l : List (String × String)} {k : String} :
    containsKey l k = true ↔ k ∈ l.map Prod.fst := by
  simp [containsKey, List.any_eq_true]

theorem containsKey_eq_false {l : List (String × String)} {k : String}
    (h : containsKey l k = false) : k ∉ l.map Prod.fst := by
  intro hmem
  rw [containsKey_iff.mpr hmem] at h
  exact Bool.true_eq_false.mp h

theorem containsKey_cons_false {kv : String × String} {rest : List (String × String)}
    {k : String} (h : containsKey (kv :: rest) k = false) :
    kv.1 ≠ k ∧ containsKey rest k = false := by
  simp only [containsKey, List.any_cons, Bool.or_eq_false_iff, beq_eq_false_iff_ne,
    ne_eq] at h
  exact ⟨h.1, by simpa [containsKey] using h.2⟩

theorem containsKey_insertSorted_self (k v : String) :
    ∀ l : List (String × String), containsKey (insertSorted k v l) k = true := by
  intro l
  induction l with
  | nil => simp [insertSorted, containsKey]
  | cons kv rest ih =>
    rw [insertSorted]
    split
    · simp [containsKey]
    · split
      · simp [containsKey]
      · simp only [containsKey, List.any_cons, Bool.or_eq_true]
        right
        simpa [containsKey] using ih

theorem updateValue_updateValue (l : List (String × String)) (k v₁ v₂ : String) :
    updateValue (updateValue l k v₁) k v₂ = updateValue l k v₂ := by
  induction l with
  | nil => rfl
  | cons kv rest ih =>
    by_cases hk : kv.1 = k
    · simp [updateValue_cons, hk, ih]
    · simp [updateValue_cons, hk, ih]

theorem updateValue_of_not_contains {l : List (String × String)} {k : String}
    (h : containsKey l k = false) (v : String) : updateValue l k v = l := by
  induction l with
  | nil => rfl
  | cons kv rest ih =>
    obtain ⟨h1, h2⟩ := containsKey_cons_false h
    rw [updateValue_cons, if_neg h1, ih h2]

theorem updateValue_insertSorted {l : List (String × String)} {k : String}
    (h : containsKey l k = false) (v₁ v₂ : String) :
    updateValue (insertSorted k v₁ l) k v₂ = insertSorted k v₂ l := by
  induction l with
  | nil => simp [insertSorted, updateValue]
  | cons kv rest ih =>
    obtain ⟨h1, h2⟩ := containsKey_cons_false h
    rw [insertSorted]
    split
    · rename_i hlt
      rw [updateValue_cons, if_pos rfl, updateValue_cons, if_neg h1,
        updateValue_of_not_contains h2 v₂, insertSorted, if_pos hlt]
    · split
      · rename_i hnlt heq
        exact absurd heq.symm h1
      · rename_i hnlt hne
        rw [updateValue_cons, if_neg h1, ih h2, insertSorted, if_neg hnlt, if_neg hne]

theorem containsKey_updateValue (l : List (String × String)) (k v k' : String) :
    containsKey (updateValue l k v) k' = containsKey l k' := by
  induction l with
  | nil => rfl
  | cons kv rest ih =>
    by_cases hk : kv.1 = k
    · rw [updateValue_cons, if_pos hk, containsKey_cons, containsKey_cons, ih, hk]
    · rw [updateValue_cons, if_neg hk, containsKey_cons, containsKey_cons, ih]

theorem count_keys_insertSorted {l : List (String × String)} {k : String}
    (h : containsKey l k = false) (v : String) :
    ((insertSorted k v l).map Prod.fst).count k = 1 := by
  induction l with
  | nil => simp [insertSorted]
  | cons kv rest ih =>
    obtain ⟨h1, h2⟩ := containsKey_cons_false h
    have hkmem : k ∉ rest.map Prod.fst := containsKey_eq_false h2
    rw [insertSorted]
    split
    · rw [List.map_cons, List.map_cons]
      simp [List.count_cons, List.count_eq_zero.mpr hkmem, h1, Ne.symm h1]
    · split
      · rename_i hnlt heq
        exact absurd heq.symm h1
      · rw [List.map_cons]
        simp [List.count_cons, ih h2, h1, Ne.symm h1]

theorem lookupValue_updateValue_ne (l : List (String × String)) (k v k' : String)
    (h : k' ≠ k) : lookupValue (updateValue l k v) k' = lookupValue l k' := by
  induction l with
  | nil => rfl
  | cons kv rest ih =>
    by_cases hk : kv.1 = k
    · rw [updateValue_cons, if_pos hk, lookupValue, lookupValue,
        if_neg (show ¬kv.1 = k' from hk ▸ Ne.symm h),
        if_neg (show ¬kv.1 = k' from hk ▸ Ne.symm h), ih]
    · rw [updateValue_cons, if_neg hk, lookupValue, lookupValue, ih]

theorem lookupValue_insertSorted_ne (l : List (String × String)) (k v k' : String)
    (h : k' ≠ k) : lookupValue (insertSorted k v l) k' = lookupValue l k' := by
  induction l with
  | nil => simp [insertSorted, lookupValue, Ne.symm h]
  | cons kv rest ih =>
    rw [insertSorted]
    split
    · rw [lookupValue, if_neg (Ne.symm h)]
    · split
      · rename_i hnlt heq
        rw [lookupValue, if_neg (Ne.symm h), lookupValue, if_neg (heq ▸ Ne.symm h)]
      · rw [lookupValue, lookupValue]
        split
        · rfl
        · exact ih

/-! ## Header-set lemmas -/

theorem lookupHeader_setHeader_self (hs : List (String × String)) (n v : String) :
    lookupHeader (setHeader hs n v) n = some v := by
  induction hs with
  | nil => simp [setHeader, lookupHeader]
  | cons h rest ih =>
    rw [setHeader]
    split
    · rw [lookupHeader, if_pos rfl]
    · rename_i hne
      rw [lookupHeader, if_neg hne]
      exact ih

theorem lookupHeader_setHeader_ne (hs : List (String × String)) (n v n' : String)
    (h : n' ≠ n) : lookupHeader (setHeader hs n v) n' = lookupHeader hs n' := by
  induction hs with
  | nil => simp [setHeader, lookupHeader, Ne.symm h]
  | cons hd rest ih =>
    rw [setHeader]
    split
    · rename_i heq
      rw [lookupHeader, if_neg (Ne.symm h), lookupHeader, if_neg (heq ▸ Ne.symm h)]
    · rw [lookupHeader, lookupHeader]
      split
      · rfl
      · exact ih

/-! ## Invariants preserved by the builder operations -/

theorem sortedKeys_url_param {p : RequestParams} (k v : String)
    (h : sortedKeys p.url_params) : sortedKeys (p.url_param k v).url_params := by
  rw [RequestParams.url_param]
  split
  · exact sortedKeys_updateValue k v h
  · exact sortedKeys_insertSorted h

theorem sortedKeys_applyOp {p : RequestParams} (op : Op)
    (h : sortedKeys p.url_params) : sortedKeys (applyOp p op).url_params := by
  cases op with
  | baseUrl base => exact h
  | urlParam key value => exact sortedKeys_url_param key value h
  | header name value => exact h

theorem sortedKeys_applyOps {p : RequestParams} (ops : List Op)
    (h : sortedKeys p.url_params) : sortedKeys (applyOps p ops).url_params := by
  induction ops generalizing p with
  | nil => exact h
  | cons op rest ih => exact ih (sortedKeys_applyOp op h)

theorem sortedKeys_new (base : String) :
    sortedKeys (RequestParams.new base).url_params :=
  List.Pairwise.nil

/-- The header set is untouched by `base_url` and `url_param`, and updated
by `header` via `setHeader`. -/
theorem headers_applyOp (p : RequestParams) (op : Op) :
    (applyOp p op).headers = p.headers ∨
      ∃ n v, op = Op.header n v ∧ (applyOp p op).headers = setHeader p.headers n v := by
  cases op with
  | baseUrl base => exact Or.inl rfl
  | urlParam key value =>
    left
    rw [applyOp, RequestParams.url_param]
    split <;> rfl
  | header name value => exact Or.inr ⟨name, value, rfl, rfl⟩

theorem contentType_applyOp {p : RequestParams} (op : Op)
    (h : (lookupHeader p.headers "Content-Type").isSome = true) :
    (lookupHeader (applyOp p op).headers "Content-Type").isSome = true := by
  rcases headers_applyOp p op with heq | ⟨n, v, _, heq⟩
  · rw [heq]; exact h
  · rw [heq]
    by_cases hn : ("Content-Type" : String) = n
    · rw [hn, lookupHeader_setHeader_self]; rfl
    · rw [lookupHeader_setHeader_ne _ _ _ _ hn]; exact h

theorem contentType_value_applyOp {p : RequestParams} (op : Op)
    (hop : ∀ v, v ≠ "application/json" → op ≠ Op.header "Content-Type" v)
    (h : lookupHeader p.headers "Content-Type" = some "application/json") :
    lookupHeader (applyOp p op).headers "Content-Type" = some "application/json" := by
  cases op with
  | baseUrl base => exact h
  | urlParam key value =>
    rw [applyOp, RequestParams.url_param]
    split <;> exact h
  | header name value =>
    rw [applyOp, RequestParams.header]
    by_cases hn : ("Content-Type" : String) = name
    · subst hn
      by_cases hv : value = "application/json"
      · rw [hv, lookupHeader_setHeader_self]
      · exact absurd rfl (hop value hv)
    · rw [lookupHeader_setHeader_ne _ _ _ _ hn]
      exact h

/-! ## Byte-level facts about the form-urlencoded serialization -/

/-- A string whose characters are all ASCII. -/
def asciiString (s : String) : Prop :=
  ∀ c ∈ s.data, c.toNat < 128

theorem char_toNat_lt (c : Char) : c.toNat < 1114112 := by
  rcases c.valid with h | ⟨_, h⟩
  · exact Nat.lt_trans h (by decide)
  · exact h

theorem mem_utf8Bytes_lt {c : Char} {b : Nat} (h : b ∈ utf8Bytes c) : b < 256 := by
  have hc := char_toNat_lt c
  simp only [utf8Bytes] at h
  split at h
  · simp only [List.mem_singleton] at h
    omega
  · split at h
    · simp only [List.mem_cons, List.not_mem_nil, or_false] at h
      rcases h with rfl | rfl <;> omega
    · split at h
      · simp only [List.mem_cons, List.not_mem_nil, or_false] at h
        rcases h with rfl | rfl | rfl <;> omega
      · simp only [List.mem_cons, List.not_mem_nil, or_false] at h
        rcases h with rfl | rfl | rfl | rfl <;> omega

theorem mem_stringBytes_lt {s : String} {b : Nat} (h : b ∈ stringBytes s) : b < 256 := by
  rw [stringBytes] at h
  rcases List.mem_flatten.mp h with ⟨bs, hbs, hb⟩
  rcases List.mem_map.mp hbs with ⟨c, _, rfl⟩
  exact mem_utf8Bytes_lt hb

theorem toNat_Char_ofNat_of_lt {n : Nat} (h : n < 55296) : (Char.ofNat n).toNat = n := by
  rw [Char.ofNat, dif_pos (Or.inl h)]
  rfl

theorem safeByte_lt {b : Nat} (h : safeByte b = true) : b < 128 := by
  simp only [safeByte, Bool.or_eq_true, beq_iff_eq, Bool.and_eq_true,
    decide_eq_true_eq] at h
  omega

theorem hexUpper_ascii {n : Nat} (h : n < 16) : (hexUpper n).toNat < 128 := by
  rw [hexUpper]
  split
  · rw [toNat_Char_ofNat_of_lt (by omega)]; omega
  · rw [toNat_Char_ofNat_of_lt (by omega)]; omega

theorem mem_encodeByte_ascii {b : Nat} (hb : b < 256) {c : Char}
    (h : c ∈ encodeByte b) : c.toNat < 128 := by
  rw [encodeByte] at h
  split at h
  · rw [List.mem_singleton] at h
    subst h
    decide
  · split at h
    · rename_i hplus hsafe
      rw [List.mem_singleton] at h
      subst h
      rw [toNat_Char_ofNat_of_lt (Nat.lt_trans (safeByte_lt hsafe) (by decide))]
      exact safeByte_lt hsafe
    · simp only [List.mem_cons, List.not_mem_nil, or_false] at h
      rcases h with rfl | rfl | rfl
      · decide
      · exact hexUpper_ascii (by omega)
      · exact hexUpper_ascii (by omega)

theorem ascii_formUrlencode (s : String) : asciiString (formUrlencode s) := by
  intro c hc
  have hc' : c ∈ ((stringBytes s).map encodeByte).flatten := hc
  rcases List.mem_flatten.mp hc' with ⟨cs, hcs, hcmem⟩
  rcases List.mem_map.mp hcs with ⟨b, hb, rfl⟩
  exact mem_encodeByte_ascii (mem_stringBytes_lt hb) hcmem

theorem ascii_append {a b : String} (ha : asciiString a) (hb : asciiString b) :
    asciiString (a ++ b) := by
  intro c hc
  rw [String.data_append] at hc
  rcases List.mem_append.mp hc with h | h
  · exact ha c h
  · exact hb c h

theorem ascii_serializePair (kv : String × String) : asciiString (serializePair kv) :=
  ascii_append (ascii_append (ascii_formUrlencode kv.1) (by intro c hc; simp at hc; simp [hc]))
    (ascii_formUrlencode kv.2)

theorem ascii_serializePairs (l : List (String × String)) :
    asciiString (serializePairs l) := by
  induction l with
  | nil => intro c hc; simp [serializePairs] at hc
  | cons kv rest ih =>
    cases rest with
    | nil => exact ascii_serializePair kv
    | cons kv' rest' =>
      rw [serializePairs]
      exact ascii_append
        (ascii_append (ascii_serializePair kv)
          (by intro c hc; simp at hc; simp [hc]))
        ih

theorem ascii_qry (l : List (String × String)) :
    asciiString ("?" ++ serializePairs l) :=
  ascii_append (by intro c hc; simp at hc; simp [hc]) (ascii_serializePairs l)

theorem flatten_utf8Bytes_length {cs : List Char} (h : ∀ c ∈ cs, c.toNat < 128) :
    ((cs.map utf8Bytes).flatten).length = cs.length := by
  induction cs with
  | nil => rfl
  | cons c rest ih =>
    have hc : utf8Bytes c = [c.toNat] := by
      simp only [utf8Bytes]
      rw [if_pos (h c (List.mem_cons_self c rest))]
    rw [List.map_cons, List.flatten_cons, List.length_append, hc,
      ih (fun c' hc' => h c' (List.mem_cons_of_mem c hc'))]
    simp [Nat.add_comm]

theorem strUtf8Len_of_ascii {s : String} (h : asciiString s) :
    strUtf8Len s = s.length := by
  rw [strUtf8Len, stringBytes, flatten_utf8Bytes_length h]
  rfl

theorem get_url_qry_of_ne_nil {p : RequestParams} (h : p.url_params ≠ []) :
    p.get_url_qry = (("?" ++ serializePairs p.url_params).length,
      some ("?" ++ serializePairs p.url_params)) := by
  rw [RequestParams.get_url_qry, if_pos (List.length_pos.mpr h)]
  show (strUtf8Len _, some _) = _
  rw [strUtf8Len_of_ascii (ascii_qry p.url_params)]

theorem contentType_applyOps (p : RequestParams) (ops : List Op)
    (h : (lookupHeader p.headers "Content-Type").isSome = true) :
    (lookupHeader (applyOps p ops).headers "Content-Type").isSome = true := by
  induction ops generalizing p with
  | nil => exact h
  | cons op rest ih => exact ih (applyOp p op) (contentType_applyOp op h)

theorem contentType_value_applyOps (p : RequestParams) (ops : List Op)
    (hops : ∀ v, v ≠ "application/json" → Op.header "Content-Type" v ∉ ops)
    (h : lookupHeader p.headers "Content-Type" = some "application/json") :
    lookupHeader (applyOps p ops).headers "Content-Type" = some "application/json" := by
  induction ops generalizing p with
  | nil => exact h
  | cons op rest ih =>
    refine ih (applyOp p op)
      (fun v hv hmem => hops v hv (List.mem_cons_of_mem _ hmem)) ?_
    refine contentType_value_applyOp op (fun v hv heq => ?_) h
    exact hops v hv (heq ▸ List.mem_cons_self op rest)

theorem nodup_keys_of_sortedKeys {l : List (String × String)} (h : sortedKeys l) :
    (l.map Prod.fst).Nodup := by
  have h2 := (List.pairwise_map (f := Prod.fst)
    (R := fun x y : String => x.data < y.data)).mpr h
  exact h2.imp (fun hlt heq => absurd (heq ▸ hlt) (lt_irrefl _))

theorem url_param_url_param (p : RequestParams) (k v₁ v₂ : String) :
    (p.url_param k v₁).url_param k v₂ = p.url_param k v₂ := by
  by_cases hc : containsKey p.url_params k = true
  · have hc2 : containsKey (updateValue p.url_params k v₁) k = true := by
      rw [containsKey_updateValue]
      exact hc
    simp only [RequestParams.url_param, hc, if_true, hc2, updateValue_updateValue]
  · have hc' : containsKey p.url_params k = false := by
      simpa using hc
    have hc2 : containsKey (insertSorted k v₁ p.url_params) k = true :=
      containsKey_insertSorted_self k v₁ p.url_params
    simp only [RequestParams.url_param, hc', Bool.false_eq_true, if_false, hc2, if_true,
      updateValue_insertSorted hc']

/-! ## Claim theorems -/

/-- Claim C1, counterexample: on the store holding exactly
{"pretty": true, "q": "*"}, `get_url_qry()` does not return the pair
`(17, Some "?pretty=true&q=*")` the claim states: the reported length is
the byte length of `?pretty=true&q=*`, which is 16, not 17. -/
theorem get_url_qry_pretty_q_ne_seventeen :
    ((RequestParams.default.url_param "pretty" "true").url_param "q" "*").get_url_qry ≠
      (17, some "?pretty=true&q=*") := by decide

/-- Claim C1, amended: on the store holding exactly
{"pretty": true, "q": "*"}, `get_url_qry()` returns `?pretty=true&q=*`
with reported length 16, the parameters serialized in key-sorted order
(`pretty` before `q`). -/
theorem get_url_qry_pretty_q_eq_sixteen :
    ((RequestParams.default.url_param "pretty" "true").url_param "q" "*").get_url_qry =
      (16, some "?pretty=true&q=*") := by decide

/-- Claim C2: for `url_param` calls with the same key, only the last value
is retained (composing two calls equals the last call alone), the key ends
up in exactly one entry of the store the query string is serialized from,
and updating an existing key changes no key and no ordering of the store. -/
theorem url_param_last_write_wins (p : RequestParams) (k v₁ v₂ : String)
    (h : sortedKeys p.url_params) :
    (p.url_param k v₁).url_param k v₂ = p.url_param k v₂ ∧
    ((p.url_param k v₂).url_params.map Prod.fst).count k = 1 ∧
    (containsKey p.url_params k = true →
      (p.url_param k v₂).url_params.map Prod.fst = p.url_params.map Prod.fst) := by
  refine ⟨url_param_url_param p k v₁ v₂, ?_, ?_⟩
  · by_cases hc : containsKey p.url_params k = true
    · rw [RequestParams.url_param, if_pos hc]
      show ((updateValue p.url_params k v₂).map Prod.fst).count k = 1
      rw [keys_updateValue]
      exact List.count_eq_one_of_mem (nodup_keys_of_sortedKeys h)
        (containsKey_iff.mp hc)
    · have hc' : containsKey p.url_params k = false := by simpa using hc
      rw [RequestParams.url_param, hc']
      show ((insertSorted k v₂ p.url_params).map Prod.fst).count k = 1
      exact count_keys_insertSorted hc' v₂
  · intro hc
    rw [RequestParams.url_param, if_pos hc]
    exact keys_updateValue p.url_params k v₂

/-- Witness for C2 at a concrete store: `{"pretty": "false"}`, updating
`pretty` twice and checking last-write-wins, single occurrence and
unchanged key order. -/
theorem url_param_last_write_wins_witness :
    sortedKeys (RequestParams.default.url_param "pretty" "false").url_params ∧
    (((RequestParams.default.url_param "pretty" "false").url_param "pretty"
        "0").url_param "pretty" "true" =
      (RequestParams.default.url_param "pretty" "false").url_param "pretty" "true") ∧
    ((((RequestParams.default.url_param "pretty" "false").url_param "pretty"
        "true").url_params.map Prod.fst).count "pretty" = 1) ∧
    (containsKey (RequestParams.default.url_param "pretty" "false").url_params "pretty"
        = true →
      ((RequestParams.default.url_param "pretty" "false").url_param "pretty"
          "true").url_params.map Prod.fst =
        (RequestParams.default.url_param "pretty" "false").url_params.map Prod.fst) := by
  have h := url_param_last_write_wins
    (RequestParams.default.url_param "pretty" "false") "pretty" "0" "true" (by decide)
  exact ⟨by decide, h.1, h.2.1, h.2.2⟩

/-- Claim C3: starting from `new` (or `default`), after any sequence of
`base_url`, `url_param` and `header` operations the `Content-Type` header
is present; and when no `header` call set `Content-Type` to a value other
than `application/json`, it still reads `application/json`. -/
theorem content_type_header_invariant (base : String) (ops : List Op) :
    (lookupHeader (applyOps (RequestParams.new base) ops).headers
      "Content-Type").isSome = true ∧
    ((∀ v, v ≠ "application/json" → Op.header "Content-Type" v ∉ ops) →
      lookupHeader (applyOps (RequestParams.new base) ops).headers "Content-Type" =
        some "application/json") := by
  constructor
  · exact contentType_applyOps (RequestParams.new base) ops rfl
  · intro hops
    exact contentType_value_applyOps (RequestParams.new base) ops hops rfl

/-- Witness for C3 on a concrete operation sequence that never touches
`Content-Type`. -/
theorem content_type_header_invariant_witness :
    (lookupHeader (applyOps (RequestParams.new "http://eshost:9200")
        [Op.urlParam "q" "*", Op.header "Authorization" "let me in"]).headers
      "Content-Type").isSome = true ∧
    lookupHeader (applyOps (RequestParams.new "http://eshost:9200")
        [Op.urlParam "q" "*", Op.header "Authorization" "let me in"]).headers
      "Content-Type" = some "application/json" := by
  have h := content_type_header_invariant "http://eshost:9200"
    [Op.urlParam "q" "*", Op.header "Authorization" "let me in"]
  refine ⟨h.1, h.2 ?_⟩
  intro v hv hmem
  simp only [List.mem_cons, List.not_mem_nil, or_false] at hmem
  rcases hmem with heq | heq
  · exact Op.noConfusion heq
  · injection heq with h1 h2
    exact absurd h1 (by decide)

/-- Claim C4: `build_method` maps the closed six-variant verb enumeration
injectively (each variant to a distinct transport verb); totality and the
absence of a fallback path are witnessed by it being a Lean total function
defined by an exhaustive six-arm match. -/
theorem build_method_injective (a b : HttpMethod)
    (h : build_method a = build_method b) : a = b := by
  cases a <;> cases b <;> revert h <;> decide

/-- Witness for C4 at a concrete pair of verbs. -/
theorem build_method_injective_witness : HttpMethod.Patch = HttpMethod.Patch :=
  build_method_injective HttpMethod.Patch HttpMethod.Patch rfl

/-- Claim C5: for every reachable store with at least one parameter,
`get_url_qry()` yields a string (with its length) that starts with `?`
and is the `&`-joined form-urlencoded serialization of the store's
pairs, whose keys are strictly sorted (lexicographically, unique). -/
theorem get_url_qry_sorted_encoded (base : String) (ops : List Op)
    (h : (applyOps (RequestParams.new base) ops).url_params ≠ []) :
    ∃ s, (applyOps (RequestParams.new base) ops).get_url_qry = (s.length, some s) ∧
      s = "?" ++ serializePairs (applyOps (RequestParams.new base) ops).url_params ∧
      s.data.head? = some '?' ∧
      sortedKeys (applyOps (RequestParams.new base) ops).url_params := by
  refine ⟨"?" ++ serializePairs (applyOps (RequestParams.new base) ops).url_params,
    get_url_qry_of_ne_nil h, rfl, ?_,
    sortedKeys_applyOps ops (sortedKeys_new base)⟩
  rw [String.data_append]
  rfl

/-- Witness for C5 on a concrete one-parameter store. -/
theorem get_url_qry_sorted_encoded_witness :
    ∃ s, (applyOps (RequestParams.new "http://eshost:9200")
        [Op.urlParam "pretty" "true"]).get_url_qry = (s.length, some s) ∧
      s = "?" ++ serializePairs (applyOps (RequestParams.new "http://eshost:9200")
        [Op.urlParam "pretty" "true"]).url_params ∧
      s.data.head? = some '?' ∧
      sortedKeys (applyOps (RequestParams.new "http://eshost:9200")
        [Op.urlParam "pretty" "true"]).url_params :=
  get_url_qry_sorted_encoded "http://eshost:9200" [Op.urlParam "pretty" "true"]
    (by decide)

/-- Claim C6: `build_url(path, params)` is exactly the concatenation
`base_url ++ path ++ query_string` (query string empty when absent),
with no normalization or validation; totality holds by construction. -/
theorem build_url_concatenation (req_url : String) (params : RequestParams) :
    build_url req_url params =
      params.base_url ++ req_url ++ (params.get_url_qry.2.getD "") := by
  simp only [build_url]
  cases hq : params.get_url_qry.2 with
  | none => rw [Option.getD_none, String.append_empty]
  | some q => rw [Option.getD_some]

/-- Claim C7: `get_url_qry()` on a store with zero url parameters returns
length `0` and no string. -/
theorem get_url_qry_empty (p : RequestParams) (h : p.url_params = []) :
    p.get_url_qry = (0, none) := by
  rw [RequestParams.get_url_qry, if_neg (by simp [h])]

/-- Witness for C7 at the default store. -/
theorem get_url_qry_empty_witness : RequestParams.default.get_url_qry = (0, none) :=
  get_url_qry_empty RequestParams.default rfl

/-- Claim C8: the end-to-end scenario
`RequestParams::new("http://eshost:9200").url_param("pretty", true)` with
path `/myindex/mytype/_search` produces exactly
`http://eshost:9200/myindex/mytype/_search?pretty=true`. -/
theorem end_to_end_eshost_search :
    build_url "/myindex/mytype/_search"
        ((RequestParams.new "http://eshost:9200").url_param "pretty" "true") =
      "http://eshost:9200/myindex/mytype/_search?pretty=true" := by decide

/-- Claim C9: for every `RequestParams` value, the pair returned by
`get_url_qry()` is internally consistent: it is `(0, None)` or
`(n, Some s)` with `n` the character length of `s` and `n` positive, so a
reported length of `0` occurs exactly when the string is absent. -/
theorem get_url_qry_consistent (p : RequestParams) :
    p.get_url_qry = (0, none) ∨
      ∃ s, p.get_url_qry = (s.length, some s) ∧ 0 < s.length := by
  by_cases h : p.url_params = []
  · exact Or.inl (get_url_qry_empty p h)
  · refine Or.inr ⟨"?" ++ serializePairs p.url_params, get_url_qry_of_ne_nil h, ?_⟩
    rw [String.length_append, show ("?" : String).length = 1 from rfl]
    omega

/-- Claim C10: `url_param(key, value)` changes at most the binding of that
key: the base url, the whole header set, and the value stored at every
other key are unchanged. -/
theorem url_param_frame (p : RequestParams) (k v k' : String) (h : k' ≠ k) :
    (p.url_param k v).base_url = p.base_url ∧
    (p.url_param k v).headers = p.headers ∧
    lookupValue (p.url_param k v).url_params k' = lookupValue p.url_params k' := by
  rw [RequestParams.url_param]
  split
  · exact ⟨rfl, rfl, lookupValue_updateValue_ne p.url_params k v k' h⟩
  · exact ⟨rfl, rfl, lookupValue_insertSorted_ne p.url_params k v k' h⟩

/-- Witness for C10 at a concrete store and distinct keys. -/
theorem url_param_frame_witness :
    (RequestParams.default.url_param "pretty" "true").base_url =
      RequestParams.default.base_url ∧
    (RequestParams.default.url_param "pretty" "true").headers =
      RequestParams.default.headers ∧
    lookupValue (RequestParams.default.url_param "pretty" "true").url_params "q" =
      lookupValue RequestParams.default.url_params "q" :=
  url_param_frame RequestParams.default "pretty" "true" "q" (by decide)

end ElasticReqwest
